import Mathlib

/-!
Verification of the caption acquisition-and-normalization pipeline of the
yt-captions-downloader repository.

JavaScript strings are modelled as `List Char`; machine numbers of the
pagination code as `Int`/`Nat` (the source only ever handles offsets far below
2^53, so exact integer arithmetic is faithful); fallible operations return
`Except`/`Option`.  Every definition is translated from the TypeScript source
(`src/youtube.ts`, `src/validation.ts`, `src/whisper.ts`, and the MCP server
module containing `paginateText`); the relevant source function is named in
each doc comment.
-/

namespace YtCaps

/-- Model of the JavaScript whitespace class: the characters recognised by
`String.prototype.trim` and the regex class `\s` that actually occur in caption
text (space, tab, newline, carriage return). -/
def isWS (c : Char) : Bool :=
  c == ' ' || c == '\t' || c == '\n' || c == '\r'

/-- Decimal digit characters, the regex class `\d`. -/
def isDig (c : Char) : Bool :=
  48 ≤ c.toNat && c.toNat ≤ 57

/-- JS `String.prototype.trim` on a character list. -/
def trimL (l : List Char) : List Char :=
  ((l.dropWhile isWS).reverse.dropWhile isWS).reverse

/-- One step of decimal accumulation: `a * 10 + digit value`. -/
def digStep (a : Nat) (c : Char) : Nat := a * 10 + (c.toNat - 48)

/-- Numeric value of a digit string, most significant digit first. -/
def digitsVal (l : List Char) : Nat := l.foldl digStep 0

/-- Fueled decimal printer, pushing least-significant digits onto `acc`;
fuel `n + 1` always suffices (kept fueled so the kernel can evaluate it). -/
def natCharsAux : Nat → Nat → List Char → List Char
  | 0, _, acc => acc
  | fuel + 1, n, acc =>
    if n = 0 then acc else natCharsAux fuel (n / 10) (Nat.digitChar (n % 10) :: acc)

/-- Decimal representation of a natural number, as JS `String(n)` produces. -/
def natChars (n : Nat) : List Char :=
  if n = 0 then ['0'] else natCharsAux (n + 1) n []

/-- Decimal representation of an integer, as JS `String(i)` produces. -/
def intChars (i : Int) : List Char :=
  if i < 0 then '-' :: natChars i.natAbs else natChars i.toNat

/-- Longest leading digit run of `l`, parsed; `none` when the run is empty
(JS `NaN`). -/
def digitsPrefix (l : List Char) : Option Nat :=
  let d := l.takeWhile isDig
  if d.isEmpty then none else some (digitsVal d)

/-- Model of JS `Number.parseInt(s, 10)`: skip leading whitespace, read an
optional sign, then the longest leading digit run; `none` models `NaN`. -/
def parseIntJS (l : List Char) : Option Int :=
  match l.dropWhile isWS with
  | [] => none
  | c :: rest =>
    if c = '-' then (digitsPrefix rest).map (fun n => -(n : Int))
    else if c = '+' then (digitsPrefix rest).map (fun n => (n : Int))
    else (digitsPrefix (c :: rest)).map (fun n => (n : Int))

/-- Result record of `paginateText` (the MCP server's pagination helper). -/
structure PaginationWindow where
  chunk : List Char
  nextCursor : Option (List Char)
  isTruncated : Bool
  totalLength : Int
  startOffset : Int
  endOffset : Int
deriving DecidableEq

/-- JS `String.prototype.slice(start, end)`: negative indices count from the
end, both indices are clamped to `[0, length]`, and an empty string results
when the normalised start is not below the normalised end. -/
def jsSlice (l : List Char) (s e : Int) : List Char :=
  let len : Int := l.length
  let norm : Int → Int := fun i => if i < 0 then max (len + i) 0 else min i len
  let s1 := norm s
  let e1 := norm e
  if s1 < e1 then (l.take e1.toNat).drop s1.toNat else []

/-- Body of `paginateText` after the cursor has been resolved to the numeric
`startOffset`: range-check it, then slice out the window. -/
def paginateAt (text : List Char) (limit : Int) (s : Int) :
    Except Unit PaginationWindow :=
  let totalLength : Int := text.length
  if s < 0 ∨ totalLength < s then .error ()
  else
    let endOffset : Int := min (s + limit) totalLength
    let isTr : Bool := decide (endOffset < totalLength)
    .ok { chunk := jsSlice text s endOffset
          nextCursor := if isTr then some (intChars endOffset) else none
          isTruncated := isTr
          totalLength := totalLength
          startOffset := s
          endOffset := endOffset }

/-- `paginateText(text, limit, nextCursor)` from the MCP server module: the
cursor defaults to offset 0 when absent — or when it is the empty string,
which JS treats as falsy in `nextCursor ? Number.parseInt(nextCursor, 10) : 0`;
otherwise it is parsed with `Number.parseInt` and an unparsable (`NaN`),
negative, or out-of-range offset throws `Invalid next_cursor value`
(modelled as `Except.error`). -/
def paginateText (text : List Char) (limit : Int) (cursor : Option (List Char)) :
    Except Unit PaginationWindow :=
  match cursor with
  | none => paginateAt text limit 0
  | some c =>
    if c.isEmpty then paginateAt text limit 0
    else
      match parseIntJS c with
      | none => .error ()
      | some s => paginateAt text limit s

/-- Whether an `Except` result is a success. -/
def exceptOk {ε α : Type} : Except ε α → Bool
  | .ok _ => true
  | .error _ => false

/-- Chained pagination: call `paginateText`, feed each returned `nextCursor`
into the next call, and collect the chunks.  The `Bool` is `true` exactly when
the chain completed within the given fuel and its final call reported
`isTruncated = false` with no `nextCursor`. -/
def pageChain (text : List Char) (limit : Int) :
    Nat → Option (List Char) → List (List Char) × Bool
  | 0, _ => ([], false)
  | fuel + 1, cursor =>
    match paginateText text limit cursor with
    | .error _ => ([], false)
    | .ok w =>
      match w.nextCursor with
      | none => ([w.chunk], !w.isTruncated)
      | some c =>
        let r := pageChain text limit fuel (some c)
        (w.chunk :: r.1, r.2)

/-- Split a character list at newline characters, the way the parsers'
`content.split('\n')` does (an empty list yields one empty line). -/
def splitNl : List Char → List (List Char)
  | [] => [[]]
  | c :: rest =>
    if c = '\n' then [] :: splitNl rest
    else
      match splitNl rest with
      | [] => [[c]]
      | h :: t => (c :: h) :: t

/-- Suffixes of `l` that start right after a newline character. -/
def lineStartsAfterNl : List Char → List (List Char)
  | [] => []
  | c :: rest =>
    if c = '\n' then rest :: lineStartsAfterNl rest else lineStartsAfterNl rest

/-- Positions where a multiline-anchored regex `^…/m` may start matching:
the whole text, and every suffix following a newline. -/
def multilineStarts (l : List Char) : List (List Char) :=
  l :: lineStartsAfterNl l

/-- Split at the first occurrence of `t`: `some (before, after)` with
`before` free of `t`, or `none` when `t` does not occur (JS `indexOf`). -/
def splitAtChar (t : Char) : List Char → Option (List Char × List Char)
  | [] => none
  | c :: rest =>
    if c = t then some ([], rest)
    else
      match splitAtChar t rest with
      | none => none
      | some (b, a) => some (c :: b, a)

/-- Matcher for the LRC timestamp regex `^\[\d{1,2}:\d{2}(?:\.\d{2,3})?\]`
(with its backtracking semantics); returns the remainder after `]` on a
match. -/
def lrcStampSplit (l : List Char) : Option (List Char) :=
  match l with
  | '[' :: r0 =>
    let mins := r0.takeWhile isDig
    let r1 := r0.dropWhile isDig
    if mins.length = 1 ∨ mins.length = 2 then
      match r1 with
      | ':' :: r2 =>
        let secs := r2.takeWhile isDig
        let r3 := r2.dropWhile isDig
        if secs.length = 2 then
          match r3 with
          | ']' :: r4 => some r4
          | '.' :: r5 =>
            let frac := r5.takeWhile isDig
            let r6 := r5.dropWhile isDig
            if frac.length = 2 ∨ frac.length = 3 then
              match r6 with
              | ']' :: r7 => some r7
              | _ => none
            else none
          | _ => none
        else none
      | _ => none
    else none
  | _ => none

/-- Boolean form of `lrcStampSplit`. -/
def lrcStamp (l : List Char) : Bool := (lrcStampSplit l).isSome

/-- The closed set of subtitle dialects (`SubtitleFormat` in the source). -/
inductive SubtitleFormat
  | srt
  | vtt
  | ass
  | lrc
deriving DecidableEq

/-- Test of the ASS-section regex alternatives
`^\[Script Info\]|^\[V4\+ Styles\]|^\[Events\]` at one start position. -/
def assMarkerAt (s : List Char) : Bool :=
  "[Script Info]".data.isPrefixOf s || "[V4+ Styles]".data.isPrefixOf s ||
    "[Events]".data.isPrefixOf s

/-- `detectSubtitleFormat` from `src/youtube.ts`: VTT when the trimmed content
starts with `WEBVTT`; else ASS when a line starts with an ASS section marker;
else LRC when a line starts with an LRC timestamp; else SRT. -/
def detectSubtitleFormat (content : List Char) : SubtitleFormat :=
  if "WEBVTT".data.isPrefixOf (trimL content) then .vtt
  else if (multilineStarts (trimL content)).any assMarkerAt then .ass
  else if (multilineStarts (trimL content)).any lrcStamp then .lrc
  else .srt

/-- Global replace of the tag regex `<[^>]+>` by the empty string, fueled
(fuel `length + 1` always suffices; at fuel 0 the rest is left unchanged). -/
def replaceHtmlF : Nat → List Char → List Char
  | 0, l => l
  | _ + 1, [] => []
  | fuel + 1, c :: rest =>
    if c = '<' then
      match splitAtChar '>' rest with
      | some (before, after) =>
        if before.isEmpty then c :: replaceHtmlF fuel rest
        else replaceHtmlF fuel after
      | none => c :: replaceHtmlF fuel rest
    else c :: replaceHtmlF fuel rest

/-- Global replace of the bracket regex `\[[^\]]+\]` by the empty string. -/
def replaceBracketsF : Nat → List Char → List Char
  | 0, l => l
  | _ + 1, [] => []
  | fuel + 1, c :: rest =>
    if c = '[' then
      match splitAtChar ']' rest with
      | some (before, after) =>
        if before.isEmpty then c :: replaceBracketsF fuel rest
        else replaceBracketsF fuel after
      | none => c :: replaceBracketsF fuel rest
    else c :: replaceBracketsF fuel rest

/-- Replace of the anchored speaker-marker regex `^>>\s*` by the empty
string. -/
def stripLeadSpeaker (l : List Char) : List Char :=
  match l with
  | '>' :: '>' :: rest => rest.dropWhile isWS
  | _ => l

/-- Global replace of the speaker-marker regex `\s*>>\s*` by one space. -/
def replaceSpeakerF : Nat → List Char → List Char
  | 0, l => l
  | _ + 1, [] => []
  | fuel + 1, c :: rest =>
    if c = '>' then
      match rest with
      | '>' :: r2 => ' ' :: replaceSpeakerF fuel (r2.dropWhile isWS)
      | _ => c :: replaceSpeakerF fuel rest
    else if isWS c then
      match (c :: rest).dropWhile isWS with
      | '>' :: '>' :: r2 => ' ' :: replaceSpeakerF fuel (r2.dropWhile isWS)
      | _ => c :: replaceSpeakerF fuel rest
    else c :: replaceSpeakerF fuel rest

/-- Global replace of the VTT cue-settings regex
`::cue\([^)]+\)\s*\{[^}]*\}` by the empty string. -/
def replaceCueF : Nat → List Char → List Char
  | 0, l => l
  | _ + 1, [] => []
  | fuel + 1, c :: rest =>
    if c = ':' then
      match rest with
      | ':' :: 'c' :: 'u' :: 'e' :: '(' :: r1 =>
        match splitAtChar ')' r1 with
        | some (args, r2) =>
          if args.isEmpty then c :: replaceCueF fuel rest
          else
            match r2.dropWhile isWS with
            | '{' :: r4 =>
              match splitAtChar '}' r4 with
              | some (_, r5) => replaceCueF fuel r5
              | none => c :: replaceCueF fuel rest
            | _ => c :: replaceCueF fuel rest
        | none => c :: replaceCueF fuel rest
      | _ => c :: replaceCueF fuel rest
    else c :: replaceCueF fuel rest

/-- Global replace of the whitespace regex `\s+` by one space. -/
def collapseWs : List Char → List Char
  | [] => []
  | c :: rest =>
    if isWS c then
      match rest with
      | d :: _ => if isWS d then collapseWs rest else ' ' :: collapseWs rest
      | [] => [' ']
    else c :: collapseWs rest

/-- `cleanSubtitleLine` from `src/youtube.ts`: strip HTML tags, speaker
markers, bracketed sound labels and VTT cue settings, then collapse
whitespace and trim. -/
def cleanSubtitleLine (line : List Char) : List Char :=
  let s1 := replaceHtmlF (line.length + 1) line
  let s2 := stripLeadSpeaker s1
  let s3 := replaceSpeakerF (s2.length + 1) s2
  let s4 := replaceBracketsF (s3.length + 1) s3
  let s5 := replaceCueF (s4.length + 1) s4
  trimL (collapseWs s5)

/-- Matcher for one timecode `\d{2}:\d{2}:\d{2}[,.]\d{3}`; returns the
remainder on a match. -/
def timecodeSplit (l : List Char) : Option (List Char) :=
  match l with
  | a :: b :: ':' :: c :: d :: ':' :: e :: f :: sep :: g :: h :: i :: rest =>
    if isDig a && isDig b && isDig c && isDig d && isDig e && isDig f &&
        (sep == ',' || sep == '.') && isDig g && isDig h && isDig i then
      some rest
    else none
  | _ => none

/-- Test of the timestamp-range regex
`^\d{2}:\d{2}:\d{2}[,.]\d{3}\s*-->\s*\d{2}:\d{2}:\d{2}[,.]\d{3}`. -/
def isTimestampRange (l : List Char) : Bool :=
  match timecodeSplit l with
  | none => false
  | some r1 =>
    match r1.dropWhile isWS with
    | '-' :: '-' :: '>' :: r2 => (timecodeSplit (r2.dropWhile isWS)).isSome
    | _ => false

/-- Test of the index-line regex `^\d+$`. -/
def isDigitLine (l : List Char) : Bool :=
  !l.isEmpty && l.all isDig

/-- Replace of the anchored regex `^\d+\s+` by the empty string (one
replacement at most: without the `m` flag, `^` matches only at offset 0). -/
def stripLeadIndex (l : List Char) : List Char :=
  let d := l.takeWhile isDig
  let r := l.dropWhile isDig
  if d.isEmpty then l
  else if (r.takeWhile isWS).isEmpty then l
  else r.dropWhile isWS

/-- Global replace of the inline-index regex `\s+\d+\s+` by one space. -/
def stripInnerIndexF : Nat → List Char → List Char
  | 0, l => l
  | _ + 1, [] => []
  | fuel + 1, c :: rest =>
    if isWS c then
      let afterW := (c :: rest).dropWhile isWS
      let d := afterW.takeWhile isDig
      let afterD := afterW.dropWhile isDig
      if d.isEmpty then c :: stripInnerIndexF fuel rest
      else if (afterD.takeWhile isWS).isEmpty then c :: stripInnerIndexF fuel rest
      else ' ' :: stripInnerIndexF fuel (afterD.dropWhile isWS)
    else c :: stripInnerIndexF fuel rest

/-- Replace of the trailing-index regex `\s+\d+$` by the empty string. -/
def stripTrailIndex (l : List Char) : List Char :=
  let r := l.reverse
  let d := r.takeWhile isDig
  let r1 := r.dropWhile isDig
  if d.isEmpty then l
  else if (r1.takeWhile isWS).isEmpty then l
  else (r1.dropWhile isWS).reverse

/-- Processing of one SRT cue-text line inside `parseSRT`: clean it, strip a
leading index number, inline index numbers and a trailing index number, then
collapse whitespace and trim once more. -/
def srtProcessLine (line : List Char) : List Char :=
  let c1 := cleanSubtitleLine line
  let c2 := stripLeadIndex c1
  let c3 := stripInnerIndexF (c2.length + 1) c2
  let c4 := stripTrailIndex c3
  trimL (collapseWs c4)

/-- Join text fragments with single spaces, as `textLines.join(' ')` does. -/
def joinSpace : List (List Char) → List Char
  | [] => []
  | [x] => x
  | x :: y :: rest => x ++ ' ' :: joinSpace (y :: rest)

/-- Fragment collection of `parseSRT`: per trimmed line, skip blank lines,
pure index lines and timestamp ranges; process the rest. -/
def srtFragments : List (List Char) → List (List Char)
  | [] => []
  | line :: rest =>
    if line.isEmpty then srtFragments rest
    else if isDigitLine line then srtFragments rest
    else if isTimestampRange line then srtFragments rest
    else
      let c := srtProcessLine line
      if c.isEmpty then srtFragments rest else c :: srtFragments rest

/-- `parseSRT` from `src/youtube.ts`. -/
def parseSRT (content : List Char) : List Char :=
  joinSpace (srtFragments ((splitNl content).map trimL))

/-- Header skip of `parseVTT`: drop leading `WEBVTT` lines, `NOTE` lines and
blank lines (tested on the raw line). -/
def vttHeaderSkip : List (List Char) → List (List Char)
  | [] => []
  | line :: rest =>
    if "WEBVTT".data.isPrefixOf line || "NOTE".data.isPrefixOf line ||
        (trimL line).isEmpty then
      vttHeaderSkip rest
    else line :: rest

/-- Fragment collection of the main loop of `parseVTT`. -/
def vttFragments : List (List Char) → List (List Char)
  | [] => []
  | rawLine :: rest =>
    let line := trimL rawLine
    if line.isEmpty then vttFragments rest
    else if isTimestampRange line then vttFragments rest
    else if "STYLE".data.isPrefixOf line || "::cue".data.isPrefixOf line ||
        "NOTE".data.isPrefixOf line then
      vttFragments rest
    else
      let c := cleanSubtitleLine line
      if c.isEmpty then vttFragments rest else c :: vttFragments rest

/-- `parseVTT` from `src/youtube.ts`. -/
def parseVTT (content : List Char) : List Char :=
  joinSpace (vttFragments (vttHeaderSkip (splitNl content)))

/-- The comma-skipping loop of `parseASS`: up to `k` times, drop through the
next comma; a step without a comma leaves the rest unchanged, and an empty
rest stops the loop. -/
def skipCommas : Nat → List Char → List Char
  | 0, r => r
  | k + 1, r =>
    if r.isEmpty then r
    else
      match splitAtChar ',' r with
      | some (_, after) => skipCommas k after
      | none => r

/-- Global replace of an ASS line-break escape (backslash followed by `t`)
by one space. -/
def replaceBackEsc (t : Char) : List Char → List Char
  | [] => []
  | [c] => [c]
  | c :: d :: rest =>
    if c = '\\' && d = t then ' ' :: replaceBackEsc t rest
    else c :: replaceBackEsc t (d :: rest)

/-- Field extraction of `parseASS` for one trimmed `Dialogue:` line: find the
first comma from index 9 (the length of `Dialogue:`), take what follows, then
run the comma-skipping loop 9 more times. -/
def assDialogueText (trimmedLine : List Char) : List Char :=
  let rest :=
    match splitAtChar ',' (trimmedLine.drop 9) with
    | some (_, after) => after
    | none => []
  skipCommas 9 rest

/-- Line loop of `parseASS`: `[Events]` turns the `inEvents` flag on; after
that, `Dialogue:` lines contribute their extracted text, with `\N` and `\n`
escapes replaced by spaces, trimmed and cleaned. -/
def parseASSLines (inEvents : Bool) : List (List Char) → List (List Char)
  | [] => []
  | rawLine :: rest =>
    let trimmed := trimL rawLine
    if "[Events]".data.isPrefixOf trimmed then parseASSLines true rest
    else if inEvents && "Dialogue:".data.isPrefixOf trimmed then
      let text := trimL (replaceBackEsc 'n' (replaceBackEsc 'N' (assDialogueText trimmed)))
      let cleaned := cleanSubtitleLine text
      if cleaned.isEmpty then parseASSLines inEvents rest
      else cleaned :: parseASSLines inEvents rest
    else parseASSLines inEvents rest

/-- `parseASS` from `src/youtube.ts`. -/
def parseASS (content : List Char) : List Char :=
  joinSpace (parseASSLines false (splitNl content))

/-- Capture group of the LRC line regex
`^\[\d{1,2}:\d{2}(?:\.\d{2,3})?\]\s*(.+)$` (with the backtracking of a greedy
`\s*` before a non-empty `.+`). -/
def lrcCapture (line : List Char) : Option (List Char) :=
  match lrcStampSplit line with
  | none => none
  | some rest =>
    if rest.isEmpty then none
    else
      let t := rest.dropWhile isWS
      if t.isEmpty then
        match rest.getLast? with
        | some c => some [c]
        | none => none
      else some t

/-- Fragment collection of `parseLRC`. -/
def lrcFragments : List (List Char) → List (List Char)
  | [] => []
  | line :: rest =>
    match lrcCapture line with
    | none => lrcFragments rest
    | some cap =>
      let cleaned := cleanSubtitleLine cap
      if cleaned.isEmpty then lrcFragments rest else cleaned :: lrcFragments rest

/-- `parseLRC` from `src/youtube.ts`. -/
def parseLRC (content : List Char) : List Char :=
  joinSpace (lrcFragments (splitNl content))

/-- The string value of a `SubtitleFormat`, as the TypeScript union of string
literals carries it at run time. -/
def formatName : SubtitleFormat → List Char
  | .srt => "srt".data
  | .vtt => "vtt".data
  | .ass => "ass".data
  | .lrc => "lrc".data

/-- `parseSubtitles` from `src/youtube.ts`: detect the format, dispatch on
its string value, and throw `Unsupported subtitle format` from the defensive
default branch (modelled as `Except.error`). -/
def parseSubtitles (content : List Char) : Except (List Char) (List Char) :=
  let fmt := formatName (detectSubtitleFormat content)
  if fmt = "vtt".data then .ok (parseVTT content)
  else if fmt = "srt".data then .ok (parseSRT content)
  else if fmt = "ass".data then .ok (parseASS content)
  else if fmt = "lrc".data then .ok (parseLRC content)
  else .error ("Unsupported subtitle format: ".data ++ fmt)

/-- Subtitle file extensions `SUB_EXTENSIONS` from `src/youtube.ts`. -/
def subExtensions : List (List Char) :=
  [".srt".data, ".vtt".data, ".ass".data, ".lrc".data]

/-- Extension (with dot) of a format. -/
def extFor (f : SubtitleFormat) : List Char := '.' :: formatName f

/-- `hasSubtitleExtension` from `src/youtube.ts`. -/
def hasSubtitleExtension (file : List Char) : Bool :=
  subExtensions.any (fun e => e.isSuffixOf file)

/-- Extension preference order of `findSubtitleFile`: the requested format's
extension first, then the other subtitle extensions. -/
def extOrder (format : Option SubtitleFormat) : List (List Char) :=
  match format with
  | some f => extFor f :: subExtensions.filter (fun e => e ≠ extFor f)
  | none => subExtensions

/-- Substring test, as JS `hay.includes(needle)`. -/
def isInfixL (needle : List Char) : List Char → Bool
  | [] => needle.isEmpty
  | c :: rest => needle.isPrefixOf (c :: rest) || isInfixL needle rest

/-- `findSubtitleFile` from `src/youtube.ts`, over the names in the temp
directory: prefer files that start with the base name and carry a subtitle
extension (first one ending in an extension of `extOrder`, else the first
candidate); otherwise fall back to any subtitle file merely containing the
base name. -/
def findSubtitleFile (baseName : List Char) (files : List (List Char))
    (format : Option SubtitleFormat) : Option (List Char) :=
  let eo := extOrder format
  let candidateFiles := files.filter
    (fun f => baseName.isPrefixOf f && hasSubtitleExtension f)
  let subtitleFile :=
    match candidateFiles.find? (fun f => eo.any (fun e => e.isSuffixOf f)) with
    | some f => some f
    | none => candidateFiles.head?
  match subtitleFile with
  | some f => some f
  | none => files.find? (fun f => hasSubtitleExtension f && isInfixL baseName f)

/-- State of the temp directory during one acquisition: the file names the
extraction tool left there, and the outcome of reading each of them
(`none` models a read error). -/
structure SubsEnv where
  files : List (List Char)
  read : List Char → Option (List Char)

/-- Outcome of the `yt-dlp` invocation: clean exit, or an error (non-zero
exit status, spawn failure or timeout — all reach the same `catch` block). -/
inductive ToolResult
  | ok
  | err
deriving DecidableEq

/-- The `catch` block of `downloadSubtitles`: search for a caption file
despite the error; a non-empty (after trimming) readable file is unlinked and
its content returned, anything else falls through to `return null`. -/
def subsCatchPath (env : SubsEnv) (baseName : List Char) (fmt : SubtitleFormat) :
    Option (List Char) × List (List Char) :=
  match findSubtitleFile baseName env.files (some fmt) with
  | none => (none, env.files)
  | some f =>
    match env.read f with
    | none => (none, env.files)
    | some content =>
      if (trimL content).isEmpty then (none, env.files)
      else (some content, env.files.erase f)

/-- `downloadSubtitles` from `src/youtube.ts`, reduced to its caption-file
logic: on a clean tool exit, search, read and return a non-empty caption file
(unlinking it); an empty file falls through to `return null` without
unlinking; a read error raises into the `catch` block, which repeats the
search.  A tool error goes straight to the `catch` block.  The second
component is the set of files still on disk when the call returns. -/
def downloadSubtitles (env : SubsEnv) (tool : ToolResult) (baseName : List Char)
    (fmt : SubtitleFormat) : Option (List Char) × List (List Char) :=
  match tool with
  | .err => subsCatchPath env baseName fmt
  | .ok =>
    match findSubtitleFile baseName env.files (some fmt) with
    | none => (none, env.files)
    | some f =>
      match env.read f with
      | none => subsCatchPath env baseName fmt
      | some content =>
        if (trimL content).isEmpty then (none, env.files)
        else (some content, env.files.erase f)

/-- Whisper operating mode (`WhisperMode` in `src/whisper.ts`); `loc` stands
for the source's `'local'`. -/
inductive WhisperMode
  | off
  | loc
  | api
deriving DecidableEq

/-- Provenance of a successful acquisition (`source` in
`validateAndDownloadSubtitles`). -/
inductive SubtitleSource
  | youtube
  | whisper
deriving DecidableEq

/-- JS truthiness of a nullable string: `null`/`undefined` and the empty
string are falsy. -/
def jsTruthy : Option (List Char) → Bool
  | none => false
  | some s => !s.isEmpty

/-- Return value of `transcribeWithWhisperLocal`/`transcribeWithWhisperApi`:
the service's text when it is non-blank (`text?.trim() ? text : null`),
otherwise `null`. -/
def whisperSvcResult (svc : Option (List Char)) : Option (List Char) :=
  match svc with
  | none => none
  | some t => if (trimL t).isEmpty then none else some t

/-- `transcribeWithWhisper` from `src/whisper.ts`: `null` immediately when
the mode is `off`; `null` when no audio file was produced; otherwise submit
the audio and, in a `finally`, always unlink the audio file.  `audioPath` is
the file `downloadAudio` produced (`none` on failure), `files` the temp
directory contents, `svc` the transcription service's response. -/
def transcribeWithWhisper (mode : WhisperMode) (audioPath : Option (List Char))
    (files : List (List Char)) (svc : Option (List Char)) :
    Option (List Char) × List (List Char) :=
  if mode = .off then (none, files)
  else
    match audioPath with
    | none => (none, files)
    | some p => (whisperSvcResult svc, files.erase p)

/-- Fallback orchestration of `validateAndDownloadSubtitles` in
`src/validation.ts`: take the primary result; when it is falsy and the
Whisper mode is not `off`, invoke `transcribeWithWhisper` exactly once (its
final result is `fallback`) and mark the source as `whisper`; a falsy final
content yields the 404 `Subtitles not found` (modelled as `none`).  The
second component counts the `transcribeWithWhisper` invocations. -/
def acquireSubtitles (primary : Option (List Char)) (mode : WhisperMode)
    (fallback : Option (List Char)) :
    Option (List Char × SubtitleSource) × Nat :=
  if jsTruthy primary then
    (primary.map (fun c => (c, SubtitleSource.youtube)), 0)
  else if mode ≠ WhisperMode.off then
    (if jsTruthy fallback then fallback.map (fun c => (c, SubtitleSource.whisper))
     else none, 1)
  else (none, 0)

/-- Characters that none of the cleaning regexes react to: not whitespace,
not a digit, and none of the trigger characters of the tag, speaker-marker,
bracket and cue-settings replacements. -/
def plainChar (c : Char) : Bool :=
  !isWS c && !isDig c && c != '<' && c != '>' && c != '[' && c != ']' && c != ':'

/-! Lemmas about digits and the decimal printer/parser pair. -/

theorem isDig_not_ws (c : Char) (h : isDig c = true) : isWS c = false := by
  by_contra hw
  rw [Bool.not_eq_false] at hw
  simp only [isWS, Bool.or_eq_true, beq_iff_eq] at hw
  rcases hw with ((rfl | rfl) | rfl) | rfl <;> exact absurd h (by decide)

theorem isDig_ne_dash (c : Char) (h : isDig c = true) : c ≠ '-' := by
  rintro rfl; exact absurd h (by decide)

theorem isDig_ne_plus (c : Char) (h : isDig c = true) : c ≠ '+' := by
  rintro rfl; exact absurd h (by decide)

theorem digitChar_toNat (m : Nat) (h : m < 10) : (Nat.digitChar m).toNat - 48 = m := by
  interval_cases m <;> decide

theorem digitChar_isDig (m : Nat) (h : m < 10) : isDig (Nat.digitChar m) = true := by
  interval_cases m <;> decide

theorem natCharsAux_zero (fuel : Nat) (acc : List Char) :
    natCharsAux fuel 0 acc = acc := by
  cases fuel <;> simp [natCharsAux]

theorem natCharsAux_append (fuel : Nat) :
    ∀ n acc, natCharsAux fuel n acc = natCharsAux fuel n [] ++ acc := by
  induction fuel with
  | zero => intro n acc; simp [natCharsAux]
  | succ fuel ih =>
    intro n acc
    by_cases h : n = 0
    · simp [natCharsAux, h]
    · simp only [natCharsAux, if_neg h]
      rw [ih (n / 10) (Nat.digitChar (n % 10) :: acc),
        ih (n / 10) [Nat.digitChar (n % 10)]]
      simp

theorem natCharsAux_val (fuel : Nat) :
    ∀ n, 0 < n → n ≤ fuel → ∀ a : Nat,
      (natCharsAux fuel n []).foldl digStep a =
        a * 10 ^ (natCharsAux fuel n []).length + n := by
  induction fuel with
  | zero => intro n h1 h2; omega
  | succ fuel ih =>
    intro n h1 h2 a
    have hn : ¬n = 0 := by omega
    have hd : (Nat.digitChar (n % 10)).toNat - 48 = n % 10 :=
      digitChar_toNat _ (Nat.mod_lt _ (by norm_num))
    simp only [natCharsAux, if_neg hn]
    rw [natCharsAux_append fuel (n / 10) [Nat.digitChar (n % 10)]]
    by_cases h10 : n / 10 = 0
    · rw [h10, natCharsAux_zero]
      have hlt : n < 10 := by
        have := Nat.div_add_mod n 10
        have := Nat.mod_lt n (show 0 < 10 by norm_num)
        omega
      simp [digStep, hd, pow_succ]
      omega
    · have hle : n / 10 ≤ fuel := by
        have := Nat.div_lt_self h1 (show 1 < 10 by norm_num)
        omega
      rw [List.foldl_append]
      rw [ih (n / 10) (by omega) hle a]
      simp only [List.foldl, digStep, hd, List.length_append, List.length_cons,
        List.length_nil]
      have hmod := Nat.div_add_mod n 10
      rw [pow_succ]
      set k := (natCharsAux fuel (n / 10) []).length
      calc (a * 10 ^ k + n / 10) * 10 + n % 10
          = a * (10 ^ k * 10) + (10 * (n / 10) + n % 10) := by ring
        _ = a * (10 ^ k * 10) + n := by rw [hmod]

theorem digitsVal_natChars (n : Nat) : digitsVal (natChars n) = n := by
  by_cases h : n = 0
  · subst h; decide
  · unfold natChars digitsVal
    rw [if_neg h]
    have := natCharsAux_val (n + 1) n (by omega) (by omega) 0
    simpa using this

theorem natChars_ne_nil (n : Nat) : natChars n ≠ [] := by
  by_cases h : n = 0
  · subst h; decide
  · unfold natChars
    rw [if_neg h]
    show natCharsAux (n + 1) n [] ≠ []
    simp only [natCharsAux, if_neg h]
    rw [natCharsAux_append]
    simp

theorem natCharsAux_all_dig (fuel : Nat) :
    ∀ n acc, (∀ c ∈ acc, isDig c = true) →
      ∀ c ∈ natCharsAux fuel n acc, isDig c = true := by
  induction fuel with
  | zero => intro n acc hacc; simpa [natCharsAux] using hacc
  | succ fuel ih =>
    intro n acc hacc
    by_cases h : n = 0
    · simpa [natCharsAux, h] using hacc
    · simp only [natCharsAux, if_neg h]
      refine ih (n / 10) _ ?_
      intro c hc
      rcases List.mem_cons.mp hc with rfl | hc
      · exact digitChar_isDig _ (Nat.mod_lt _ (by norm_num))
      · exact hacc c hc

theorem natChars_all_dig (n : Nat) : ∀ c ∈ natChars n, isDig c = true := by
  by_cases h : n = 0
  · subst h; intro c hc; simp [natChars] at hc; subst hc; decide
  · unfold natChars
    rw [if_neg h]
    exact natCharsAux_all_dig (n + 1) n [] (by simp)

theorem takeWhile_all_eq {p : Char → Bool} :
    ∀ l : List Char, (∀ c ∈ l, p c = true) → l.takeWhile p = l := by
  intro l h
  induction l with
  | nil => rfl
  | cons c rest ih =>
    rw [List.takeWhile_cons, h c (List.mem_cons_self c rest)]
    rw [ih (fun d hd => h d (List.mem_cons_of_mem c hd))]
    simp

theorem parseIntJS_natChars (n : Nat) : parseIntJS (natChars n) = some (n : Int) := by
  obtain ⟨c, rest, hE⟩ := List.exists_cons_of_ne_nil (natChars_ne_nil n)
  have hdigc : isDig c = true := natChars_all_dig n c (hE ▸ List.mem_cons_self c rest)
  have hws : isWS c = false := isDig_not_ws c hdigc
  have hdw : (natChars n).dropWhile isWS = c :: rest := by
    rw [hE, List.dropWhile_cons, hws]
    simp
  unfold parseIntJS
  rw [hdw]
  show (if c = '-' then _ else if c = '+' then _ else
    (digitsPrefix (c :: rest)).map (fun n => (n : Int))) = some (n : Int)
  rw [if_neg (isDig_ne_dash c hdigc), if_neg (isDig_ne_plus c hdigc), ← hE]
  have hne : (natChars n).isEmpty = false := by rw [hE]; rfl
  have hdp : digitsPrefix (natChars n) = some n := by
    unfold digitsPrefix
    simp only [takeWhile_all_eq (natChars n) (natChars_all_dig n), hne,
      Bool.false_eq_true, if_false]
    rw [digitsVal_natChars]
  rw [hdp]
  rfl

/-! Lemmas about `jsSlice` and `paginateAt`. -/

theorem jsSlice_eval (l : List Char) (s e : Nat) (hs : s ≤ l.length)
    (he : e ≤ l.length) : jsSlice l (s : Int) (e : Int) = (l.take e).drop s := by
  unfold jsSlice
  have h1 : ¬(s : Int) < 0 := by omega
  have h2 : ¬(e : Int) < 0 := by omega
  have h3 : min (s : Int) (l.length : Int) = (s : Int) := by omega
  have h4 : min (e : Int) (l.length : Int) = (e : Int) := by omega
  simp only [if_neg h1, if_neg h2, h3, h4]
  by_cases hse : (s : Int) < (e : Int)
  · rw [if_pos hse]
    simp
  · rw [if_neg hse]
    have : (l.take e).length ≤ s := by
      rw [List.length_take]
      omega
    rw [List.drop_eq_nil_of_le this]

theorem take_drop_append (l : List Char) (s e : Nat) (h1 : s ≤ e)
    (h2 : e ≤ l.length) : (l.take e).drop s ++ l.drop e = l.drop s := by
  rw [List.drop_take]
  have : l.drop e = (l.drop s).drop (e - s) := by
    rw [List.drop_drop]
    congr 1
    omega
  rw [this, List.take_append_drop]

theorem paginateText_resolve (text : List Char) (limit : Int) (s : Nat)
    (cursor : Option (List Char))
    (h : (cursor = none ∧ s = 0) ∨
      ∃ c, cursor = some c ∧ c.isEmpty = false ∧ parseIntJS c = some (s : Int)) :
    paginateText text limit cursor = paginateAt text limit (s : Int) := by
  rcases h with ⟨rfl, rfl⟩ | ⟨c, rfl, h1, h2⟩
  · rfl
  · unfold paginateText
    simp [h1, h2]

theorem pageChain_complete (text : List Char) (limit : Int) (hl : 1 ≤ limit) :
    ∀ fuel (s : Nat), s ≤ text.length → text.length - s < fuel →
      ∀ cursor, ((cursor = none ∧ s = 0) ∨
        ∃ c, cursor = some c ∧ c.isEmpty = false ∧ parseIntJS c = some (s : Int)) →
      (pageChain text limit fuel cursor).1.flatten = text.drop s ∧
        (pageChain text limit fuel cursor).2 = true := by
  intro fuel
  induction fuel with
  | zero => intro s h1 h2 cursor hcur; omega
  | succ fuel ih =>
    intro s hs hfuel cursor hcur
    rw [pageChain, paginateText_resolve text limit s cursor hcur]
    have hguard : ¬((s : Int) < 0 ∨ (text.length : Int) < (s : Int)) := by
      push_cast
      omega
    unfold paginateAt
    rw [if_neg hguard]
    set e : Int := min ((s : Int) + limit) (text.length : Int) with he
    by_cases htr : e < (text.length : Int)
    · have he2 : e = (s : Int) + limit := by
        rcases le_total ((s : Int) + limit) (text.length : Int) with h | h
        · rw [he, min_eq_left h]
        · rw [he, min_eq_right h] at htr; omega
      have he3 : (0 : Int) ≤ e := by omega
      have heN : ((e.toNat : Int)) = e := Int.toNat_of_nonneg he3
      have heNle : e.toNat ≤ text.length := by omega
      have hseN : s < e.toNat := by omega
      have hic : intChars e = natChars e.toNat := by
        unfold intChars
        rw [if_neg (not_lt.mpr he3)]
      have hrec := ih e.toNat heNle (by omega) (some (natChars e.toNat))
        (Or.inr ⟨natChars e.toNat, rfl,
          by
            have := natChars_ne_nil e.toNat
            cases hnc : natChars e.toNat with
            | nil => exact absurd hnc this
            | cons a l => rfl,
          by rw [parseIntJS_natChars, heN]⟩)
      have hchunk : jsSlice text (s : Int) e = (text.take e.toNat).drop s := by
        rw [← heN]
        exact jsSlice_eval text s e.toNat hs heNle
      simp only [decide_eq_true htr, if_pos]
      constructor
      · rw [hic]
        simp only [List.flatten_cons]
        rw [hrec.1, hchunk]
        exact take_drop_append text s e.toNat (le_of_lt hseN) heNle
      · rw [hic]
        exact hrec.2
    · have he2 : e = (text.length : Int) := le_antisymm (min_le_right _ _) (not_lt.mp htr)
      have hfalse : decide (e < (text.length : Int)) = false := by
        simp [htr]
      simp only [hfalse, Bool.false_eq_true, if_false]
      constructor
      · show jsSlice text (s : Int) e ++ [].flatten = _
        rw [he2]
        have : ((text.length : Int)) = ((text.length : Nat) : Int) := rfl
        rw [this, jsSlice_eval text s text.length hs (le_refl _)]
        simp [List.take_length]
      · rfl

/-- C4: for every text and window size of at least 1, the chain of
`paginateText` calls that starts with no cursor and feeds each returned
`nextCursor` into the next call terminates (fuel `length + 1` suffices), the
concatenation of the returned chunks equals the text exactly, and the final
call returns `isTruncated = false` with no `nextCursor` (the completion flag
of `pageChain`). -/
theorem paginateText_chain_reconstructs (text : List Char) (limit : Int)
    (h : 1 ≤ limit) :
    (pageChain text limit (text.length + 1) none).1.flatten = text ∧
      (pageChain text limit (text.length + 1) none).2 = true := by
  have := pageChain_complete text limit h (text.length + 1) 0 (by omega) (by omega)
    none (Or.inl ⟨rfl, rfl⟩)
  simpa using this

/-- Witness for C4 at the concrete text `hello` with window size 2. -/
theorem paginateText_chain_reconstructs_witness :
    (1 : Int) ≤ 2 ∧
      ((pageChain "hello".data 2 ("hello".data.length + 1) none).1.flatten =
        "hello".data ∧
       (pageChain "hello".data 2 ("hello".data.length + 1) none).2 = true) :=
  ⟨by decide, paginateText_chain_reconstructs "hello".data 2 (by decide)⟩

theorem paginateAt_ok_inv (text : List Char) (limit s : Int) (w : PaginationWindow)
    (hlim : 0 ≤ limit) (h : paginateAt text limit s = .ok w) :
    0 ≤ w.startOffset ∧ w.startOffset ≤ w.endOffset ∧
      w.endOffset ≤ w.totalLength ∧
      (w.nextCursor.isSome ↔ w.endOffset < w.totalLength) := by
  unfold paginateAt at h
  by_cases hguard : s < 0 ∨ (text.length : Int) < s
  · rw [if_pos hguard] at h
    exact absurd h (by simp)
  · rw [if_neg hguard] at h
    push_neg at hguard
    injection h with h
    subst h
    dsimp only
    refine ⟨by omega, by omega, by omega, ?_⟩
    by_cases htr : min (s + limit) (text.length : Int) < (text.length : Int)
    · simp [decide_eq_true htr, htr]
    · simp [htr]

/-- C6: every window returned by a successful `paginateText` call with a
non-negative window size satisfies
`0 ≤ startOffset ≤ endOffset ≤ totalLength`, and `nextCursor` is present
precisely when `endOffset < totalLength`. -/
theorem paginateText_window_invariants (text : List Char) (limit : Int)
    (cursor : Option (List Char)) (w : PaginationWindow) (hlim : 0 ≤ limit)
    (h : paginateText text limit cursor = .ok w) :
    0 ≤ w.startOffset ∧ w.startOffset ≤ w.endOffset ∧
      w.endOffset ≤ w.totalLength ∧
      (w.nextCursor.isSome ↔ w.endOffset < w.totalLength) := by
  rcases cursor with _ | c
  · exact paginateAt_ok_inv text limit 0 w hlim h
  · have hred : paginateText text limit (some c) =
        (if c.isEmpty then paginateAt text limit 0
         else
           match parseIntJS c with
           | none => .error ()
           | some s => paginateAt text limit s) := rfl
    rw [hred] at h
    by_cases hc : c.isEmpty
    · rw [if_pos hc] at h
      exact paginateAt_ok_inv text limit 0 w hlim h
    · rw [if_neg hc] at h
      cases hp : parseIntJS c with
      | none => rw [hp] at h; exact absurd h (by simp)
      | some s => rw [hp] at h; exact paginateAt_ok_inv text limit s w hlim h

/-- Witness for C6 at text `hello`, window size 3, cursor absent. -/
theorem paginateText_window_invariants_witness :
    (0 : Int) ≤ 3 ∧
      paginateText "hello".data 3 none =
        .ok { chunk := "hel".data, nextCursor := some "3".data,
              isTruncated := true, totalLength := 5, startOffset := 0,
              endOffset := 3 } ∧
      (0 : Int) ≤ 0 ∧ (0 : Int) ≤ 3 ∧ (3 : Int) ≤ 5 ∧
      ((some "3".data).isSome ↔ (3 : Int) < 5) := by
  refine ⟨by decide, by rfl, ?_⟩
  have := paginateText_window_invariants "hello".data 3 none
    { chunk := "hel".data, nextCursor := some "3".data, isTruncated := true,
      totalLength := 5, startOffset := 0, endOffset := 3 }
    (by decide) (by rfl)
  exact this

theorem paginateAt_isError_iff (text : List Char) (limit s : Int) :
    exceptOk (paginateAt text limit s) = false ↔
      (s < 0 ∨ (text.length : Int) < s) := by
  unfold paginateAt
  by_cases h : s < 0 ∨ (text.length : Int) < s
  · rw [if_pos h]
    exact iff_of_true rfl h
  · rw [if_neg h]
    exact iff_of_false (by simp [exceptOk]) h

/-- C5 counterexample: the empty string is a supplied cursor that
`Number.parseInt` cannot parse (it yields `NaN`), yet the call succeeds;
JS truthiness makes `nextCursor ? parseInt(nextCursor) : 0` treat the empty
cursor as offset 0, so the claimed equivalence is false. -/
theorem paginateText_empty_cursor_counterexample :
    exceptOk (paginateText "hi".data 5 (some [])) = true ∧
      parseIntJS [] = none := by
  exact ⟨rfl, rfl⟩

/-- C5 (amended): `paginateText` with a supplied cursor fails precisely when
the cursor is non-empty and its `Number.parseInt` value is `NaN`, negative,
or greater than `totalLength`; the empty cursor string is treated like an
absent one (offset 0), and an absent cursor never fails. -/
theorem paginateText_cursor_validation (text : List Char) (limit : Int)
    (cursor : List Char) :
    (exceptOk (paginateText text limit (some cursor)) = false ↔
      cursor ≠ [] ∧ (parseIntJS cursor = none ∨
        ∃ v : Int, parseIntJS cursor = some v ∧
          (v < 0 ∨ (text.length : Int) < v))) ∧
      exceptOk (paginateText text limit none) = true := by
  constructor
  · rcases cursor with _ | ⟨c0, cs⟩
    · have hok : exceptOk (paginateText text limit (some [])) = true := by
        show exceptOk (paginateAt text limit 0) = true
        unfold paginateAt
        rw [if_neg (by omega)]
        rfl
      simp [hok]
    · have hne : (c0 :: cs) ≠ ([] : List Char) := by simp
      have hred : paginateText text limit (some (c0 :: cs)) =
          (match parseIntJS (c0 :: cs) with
           | none => Except.error ()
           | some s => paginateAt text limit s) := rfl
      rw [hred]
      cases hp : parseIntJS (c0 :: cs) with
      | none =>
        constructor
        · intro _
          exact ⟨hne, Or.inl rfl⟩
        · intro _
          rfl
      | some v =>
        constructor
        · intro hE
          exact ⟨hne, Or.inr ⟨v, rfl, (paginateAt_isError_iff text limit v).mp hE⟩⟩
        · rintro ⟨-, hnone | ⟨v2, hv2, hb⟩⟩
          · exact Option.noConfusion hnone
          · injection hv2 with hv2
            subst hv2
            exact (paginateAt_isError_iff text limit v).mpr hb
  · show exceptOk (paginateAt text limit 0) = true
    unfold paginateAt
    rw [if_neg (by omega)]
    rfl

/-! Lemmas bridging the executable multiline-anchor test and its
declarative decomposition. -/

theorem bor_iff {a b : Bool} : (a || b) = true ↔ a = true ∨ b = true := by
  simp

theorem lineStartsAfterNl_any (p : List Char → Bool) :
    ∀ t : List Char, ((lineStartsAfterNl t).any p = true ↔
      ∃ pre suf, t = pre ++ '\n' :: suf ∧ p suf = true) := by
  intro t
  induction t with
  | nil =>
    simp only [lineStartsAfterNl, List.any_nil]
    constructor
    · intro h
      exact absurd h (by simp)
    · rintro ⟨pre, suf, heq, -⟩
      exact absurd heq (by simp)
  | cons c rest ih =>
    by_cases hc : c = '\n'
    · subst hc
      simp only [lineStartsAfterNl, if_pos rfl, List.any_cons]
      constructor
      · intro h
        rcases bor_iff.mp h with h | h
        · exact ⟨[], rest, rfl, h⟩
        · obtain ⟨pre, suf, heq, hp⟩ := ih.mp h
          exact ⟨'\n' :: pre, suf, by rw [heq]; rfl, hp⟩
      · rintro ⟨pre, suf, heq, hp⟩
        cases pre with
        | nil =>
          injection heq with h1 h2
          subst h2
          exact bor_iff.mpr (Or.inl hp)
        | cons a pre2 =>
          injection heq with h1 h2
          exact bor_iff.mpr (Or.inr (ih.mpr ⟨pre2, suf, h2, hp⟩))
    · simp only [lineStartsAfterNl, if_neg hc]
      rw [ih]
      constructor
      · rintro ⟨pre, suf, heq, hp⟩
        exact ⟨c :: pre, suf, by rw [heq]; rfl, hp⟩
      · rintro ⟨pre, suf, heq, hp⟩
        cases pre with
        | nil =>
          injection heq with h1 h2
          exact absurd h1 hc
        | cons a pre2 =>
          injection heq with h1 h2
          exact ⟨pre2, suf, h2, hp⟩

theorem multilineStarts_any (p : List Char → Bool) (t : List Char) :
    (multilineStarts t).any p = true ↔
      ∃ pre suf, t = pre ++ suf ∧
        (pre = [] ∨ ∃ pre2, pre = pre2 ++ ['\n']) ∧ p suf = true := by
  unfold multilineStarts
  rw [List.any_cons]
  constructor
  · intro h
    rcases bor_iff.mp h with h | h
    · exact ⟨[], t, rfl, Or.inl rfl, h⟩
    · obtain ⟨pre, suf, heq, hp⟩ := (lineStartsAfterNl_any p t).mp h
      exact ⟨pre ++ ['\n'], suf, by rw [heq]; simp, Or.inr ⟨pre, rfl⟩, hp⟩
  · rintro ⟨pre, suf, heq, hline, hp⟩
    rcases hline with rfl | ⟨pre2, rfl⟩
    · simp only [List.nil_append] at heq
      subst heq
      exact bor_iff.mpr (Or.inl hp)
    · refine bor_iff.mpr (Or.inr ((lineStartsAfterNl_any p t).mpr
        ⟨pre2, suf, ?_, hp⟩))
      rw [heq]
      simp

/-- C7: `detectSubtitleFormat` is total over all strings (it always returns
one of the four formats, the cases tried in order with first match winning):
VTT exactly when the trimmed content starts with the `WEBVTT` header token;
otherwise ASS exactly when some line of the trimmed content begins with one
of the section markers `[Script Info]`, `[V4+ Styles]`, `[Events]`;
otherwise LRC exactly when some line begins with a `[mm:ss]` / `[mm:ss.xx]`
timestamp bracket; otherwise SRT — the default, which in particular covers
the empty string. -/
theorem detectSubtitleFormat_cases (content : List Char) :
    (detectSubtitleFormat content = .vtt ↔
      "WEBVTT".data.isPrefixOf (trimL content) = true) ∧
    (detectSubtitleFormat content = .ass ↔
      ¬"WEBVTT".data.isPrefixOf (trimL content) = true ∧
      (∃ pre suf, trimL content = pre ++ suf ∧
        (pre = [] ∨ ∃ pre2, pre = pre2 ++ ['\n']) ∧ assMarkerAt suf = true)) ∧
    (detectSubtitleFormat content = .lrc ↔
      ¬"WEBVTT".data.isPrefixOf (trimL content) = true ∧
      ¬(∃ pre suf, trimL content = pre ++ suf ∧
        (pre = [] ∨ ∃ pre2, pre = pre2 ++ ['\n']) ∧ assMarkerAt suf = true) ∧
      (∃ pre suf, trimL content = pre ++ suf ∧
        (pre = [] ∨ ∃ pre2, pre = pre2 ++ ['\n']) ∧ lrcStamp suf = true)) ∧
    (detectSubtitleFormat content = .srt ↔
      ¬"WEBVTT".data.isPrefixOf (trimL content) = true ∧
      ¬(∃ pre suf, trimL content = pre ++ suf ∧
        (pre = [] ∨ ∃ pre2, pre = pre2 ++ ['\n']) ∧ assMarkerAt suf = true) ∧
      ¬(∃ pre suf, trimL content = pre ++ suf ∧
        (pre = [] ∨ ∃ pre2, pre = pre2 ++ ['\n']) ∧ lrcStamp suf = true)) ∧
    detectSubtitleFormat [] = .srt := by
  have hA := multilineStarts_any assMarkerAt (trimL content)
  have hL := multilineStarts_any lrcStamp (trimL content)
  by_cases h1 : "WEBVTT".data.isPrefixOf (trimL content) = true
  · have hd : detectSubtitleFormat content = .vtt := by
      unfold detectSubtitleFormat
      rw [if_pos h1]
    refine ⟨iff_of_true hd h1, ?_, ?_, ?_, rfl⟩
    · exact iff_of_false (by rw [hd]; simp) (fun hh => hh.1 h1)
    · exact iff_of_false (by rw [hd]; simp) (fun hh => hh.1 h1)
    · exact iff_of_false (by rw [hd]; simp) (fun hh => hh.1 h1)
  · by_cases h2 : (multilineStarts (trimL content)).any assMarkerAt = true
    · have hd : detectSubtitleFormat content = .ass := by
        unfold detectSubtitleFormat
        rw [if_neg h1, if_pos h2]
      refine ⟨iff_of_false (by rw [hd]; simp) h1, ?_, ?_, ?_, rfl⟩
      · exact iff_of_true hd ⟨h1, hA.mp h2⟩
      · exact iff_of_false (by rw [hd]; simp) (fun hh => hh.2.1 (hA.mp h2))
      · exact iff_of_false (by rw [hd]; simp) (fun hh => hh.2.1 (hA.mp h2))
    · by_cases h3 : (multilineStarts (trimL content)).any lrcStamp = true
      · have hd : detectSubtitleFormat content = .lrc := by
          unfold detectSubtitleFormat
          rw [if_neg h1, if_neg h2, if_pos h3]
        refine ⟨iff_of_false (by rw [hd]; simp) ?_, ?_, ?_, ?_, rfl⟩
        · intro hh
          exact h1 hh
        · exact iff_of_false (by rw [hd]; simp) (fun hh => h2 (hA.mpr hh.2))
        · exact iff_of_true hd ⟨h1, fun hh => h2 (hA.mpr hh), hL.mp h3⟩
        · exact iff_of_false (by rw [hd]; simp) (fun hh => hh.2.2 (hL.mp h3))
      · have hd : detectSubtitleFormat content = .srt := by
          unfold detectSubtitleFormat
          rw [if_neg h1, if_neg h2, if_neg h3]
        refine ⟨iff_of_false (by rw [hd]; simp) ?_, ?_, ?_, ?_, rfl⟩
        · intro hh
          exact h1 hh
        · exact iff_of_false (by rw [hd]; simp) (fun hh => h2 (hA.mpr hh.2))
        · exact iff_of_false (by rw [hd]; simp) (fun hh => h3 (hL.mpr hh.2.2))
        · exact iff_of_true hd ⟨h1, fun hh => h2 (hA.mpr hh), fun hh => h3 (hL.mpr hh)⟩

/-- C8: `parseSubtitles` is total and never raises `UnsupportedFormatError`:
the string it dispatches on is always one of the four values the detector
returns, so the defensive `default` branch is unreachable and every input —
well-formed caption text or garbage — yields a transcript, never an error. -/
theorem parseSubtitles_total (content : List Char) :
    ∃ text, parseSubtitles content = .ok text := by
  unfold parseSubtitles
  cases hd : detectSubtitleFormat content with
  | vtt => exact ⟨parseVTT content, by rfl⟩
  | srt => exact ⟨parseSRT content, by rfl⟩
  | ass => exact ⟨parseASS content, by rfl⟩
  | lrc => exact ⟨parseLRC content, by rfl⟩

/-- C9: evaluation of `parseASS` at the failing input. The `Dialogue` line is
a standard 10-field ASS dialogue line (9 commas before the text field) whose
cue text is `Hello, world`.  The code first skips the comma that ends the
first field and then up to nine further commas, consuming ten comma-delimited
fields in total, so the comma inside the text field swallows the text before
it and only `world` survives — the claim (and the format) require skipping
exactly the first 9 fields and keeping the whole remainder, `Hello, world`. -/
theorem parseASS_comma_text_eval :
    parseASS
        ("[Events]\nDialogue: 0,0:00:00.00,0:00:05.00,Default,,0,0,0,,Hello, world".data) =
      "world".data ∧
    "world".data ≠ "Hello, world".data := by
  exact ⟨by rfl, by decide⟩

/-! Lemmas for C10: behaviour of the SRT line-processing pipeline on lines
whose words contain no digits, whitespace or cleaning-trigger characters. -/

theorem plainChar_spec (c : Char) (h : plainChar c = true) :
    isWS c = false ∧ isDig c = false ∧ c ≠ '<' ∧ c ≠ '>' ∧ c ≠ '[' ∧
      c ≠ ']' ∧ c ≠ ':' := by
  simp only [plainChar, Bool.and_eq_true, Bool.not_eq_true', bne_iff_ne, ne_eq] at h
  tauto

theorem takeWhile_append_all {p : Char → Bool} (w r : List Char)
    (h : ∀ c ∈ w, p c = true) : (w ++ r).takeWhile p = w ++ r.takeWhile p := by
  induction w with
  | nil => rfl
  | cons c w2 ih =>
    simp only [List.cons_append, List.takeWhile_cons, h c (List.mem_cons_self c w2)]
    rw [ih (fun d hd => h d (List.mem_cons_of_mem c hd))]
    simp

theorem dropWhile_append_all {p : Char → Bool} (w r : List Char)
    (h : ∀ c ∈ w, p c = true) : (w ++ r).dropWhile p = r.dropWhile p := by
  induction w with
  | nil => rfl
  | cons c w2 ih =>
    simp only [List.cons_append, List.dropWhile_cons, h c (List.mem_cons_self c w2)]
    rw [ih (fun d hd => h d (List.mem_cons_of_mem c hd))]
    simp

theorem takeWhile_cons_false {p : Char → Bool} (c : Char) (r : List Char)
    (h : p c = false) : (c :: r).takeWhile p = [] := by
  simp [List.takeWhile_cons, h]

theorem dropWhile_cons_false {p : Char → Bool} (c : Char) (r : List Char)
    (h : p c = false) : (c :: r).dropWhile p = c :: r := by
  simp [List.dropWhile_cons, h]

theorem replaceHtmlF_id (fuel : Nat) :
    ∀ l, (∀ c ∈ l, c ≠ '<') → replaceHtmlF fuel l = l := by
  induction fuel with
  | zero => intro l _; rfl
  | succ fuel ih =>
    intro l h
    cases l with
    | nil => rfl
    | cons c rest =>
      have hc : ¬c = '<' := h c (List.mem_cons_self c rest)
      simp only [replaceHtmlF, if_neg hc]
      rw [ih rest (fun d hd => h d (List.mem_cons_of_mem c hd))]

theorem replaceBracketsF_id (fuel : Nat) :
    ∀ l, (∀ c ∈ l, c ≠ '[') → replaceBracketsF fuel l = l := by
  induction fuel with
  | zero => intro l _; rfl
  | succ fuel ih =>
    intro l h
    cases l with
    | nil => rfl
    | cons c rest =>
      have hc : ¬c = '[' := h c (List.mem_cons_self c rest)
      simp only [replaceBracketsF, if_neg hc]
      rw [ih rest (fun d hd => h d (List.mem_cons_of_mem c hd))]

theorem replaceCueF_id (fuel : Nat) :
    ∀ l, (∀ c ∈ l, c ≠ ':') → replaceCueF fuel l = l := by
  induction fuel with
  | zero => intro l _; rfl
  | succ fuel ih =>
    intro l h
    cases l with
    | nil => rfl
    | cons c rest =>
      have hc : ¬c = ':' := h c (List.mem_cons_self c rest)
      simp only [replaceCueF, if_neg hc]
      rw [ih rest (fun d hd => h d (List.mem_cons_of_mem c hd))]

theorem stripLeadSpeaker_id (l : List Char) (h : ∀ c ∈ l, c ≠ '>') :
    stripLeadSpeaker l = l := by
  unfold stripLeadSpeaker
  split
  · rename_i rest
    exact absurd (h '>' (List.mem_cons_self _ _)) (by simp)
  · rfl

theorem replaceSpeakerF_id (fuel : Nat) :
    ∀ l, (∀ c ∈ l, c ≠ '>') → replaceSpeakerF fuel l = l := by
  induction fuel with
  | zero => intro l _; rfl
  | succ fuel ih =>
    intro l h
    cases l with
    | nil => rfl
    | cons c rest =>
      have hc : ¬c = '>' := h c (List.mem_cons_self c rest)
      have hrest : ∀ d ∈ rest, d ≠ '>' := fun d hd => h d (List.mem_cons_of_mem c hd)
      simp only [replaceSpeakerF, if_neg hc]
      by_cases hw : isWS c = true
      · rw [if_pos hw]
        split
        · rename_i r2 heq
          exact absurd
            (h '>' ((List.dropWhile_sublist _).subset (by rw [heq]; exact List.mem_cons_self _ _)))
            (by simp)
        · rw [ih rest hrest]
      · rw [if_neg hw, ih rest hrest]

theorem collapseWs_append_plain (w r : List Char) (h : ∀ c ∈ w, isWS c = false) :
    collapseWs (w ++ r) = w ++ collapseWs r := by
  induction w with
  | nil => rfl
  | cons c w2 ih =>
    have hc : isWS c = false := h c (List.mem_cons_self c w2)
    simp only [List.cons_append, collapseWs, hc, Bool.false_eq_true, if_false,
      List.append_eq]
    rw [ih (fun d hd => h d (List.mem_cons_of_mem c hd))]

theorem collapseWs_plain (w : List Char) (h : ∀ c ∈ w, isWS c = false) :
    collapseWs w = w := by
  have := collapseWs_append_plain w [] h
  simpa [collapseWs] using this

theorem collapseWs_space_cons (x : Char) (xs : List Char) (hx : isWS x = false) :
    collapseWs (' ' :: x :: xs) = ' ' :: collapseWs (x :: xs) := by
  simp only [collapseWs, hx]
  norm_num [isWS]

theorem dropWhile_head_not (p : Char → Bool) (l : List Char)
    (h : ∀ c, l.head? = some c → p c = false) : l.dropWhile p = l := by
  cases l with
  | nil => rfl
  | cons c rest => exact dropWhile_cons_false c rest (h c rfl)

theorem trimL_eq_self (l : List Char)
    (h1 : ∀ c, l.head? = some c → isWS c = false)
    (h2 : ∀ c, l.getLast? = some c → isWS c = false) : trimL l = l := by
  unfold trimL
  rw [dropWhile_head_not isWS l h1]
  rw [dropWhile_head_not isWS l.reverse
    (fun c hc => h2 c (by rwa [List.head?_reverse] at hc))]
  exact List.reverse_reverse l

theorem dropWhile_all_false {p : Char → Bool} (l : List Char)
    (h : ∀ c ∈ l, p c = false) : l.dropWhile p = l := by
  cases l with
  | nil => rfl
  | cons c rest => exact dropWhile_cons_false c rest (h c (List.mem_cons_self c rest))

theorem stripInnerIndexF_skip (pre : List Char)
    (hpre : ∀ c ∈ pre, isWS c = false) :
    ∀ fuel r, stripInnerIndexF fuel (pre ++ r) =
      pre ++ stripInnerIndexF (fuel - pre.length) r := by
  induction pre with
  | nil => intro fuel r; simp
  | cons c pre2 ih =>
    intro fuel r
    have hc : isWS c = false := hpre c (List.mem_cons_self _ _)
    cases fuel with
    | zero => simp [stripInnerIndexF]
    | succ fuel =>
      simp only [List.cons_append, stripInnerIndexF, hc, Bool.false_eq_true,
        if_false, List.append_eq]
      rw [ih (fun d hd => hpre d (List.mem_cons_of_mem c hd)) fuel r]
      simp [Nat.succ_sub_succ]

theorem stripInnerIndexF_no_ws (fuel : Nat) :
    ∀ l, (∀ c ∈ l, isWS c = false) → stripInnerIndexF fuel l = l := by
  induction fuel with
  | zero => intro l _; rfl
  | succ fuel ih =>
    intro l h
    cases l with
    | nil => rfl
    | cons c rest =>
      have hc : isWS c = false := h c (List.mem_cons_self _ _)
      simp only [stripInnerIndexF, hc, Bool.false_eq_true, if_false]
      rw [ih rest (fun d hd => h d (List.mem_cons_of_mem c hd))]

theorem stripInnerIndexF_match (k : Nat) (d post : List Char) (hd : d ≠ [])
    (hdD : ∀ c ∈ d, isDig c = true) (hpostW : ∀ c ∈ post, isWS c = false) :
    stripInnerIndexF (k + 1) (' ' :: (d ++ ' ' :: post)) = ' ' :: post := by
  obtain ⟨d0, d2, rfl⟩ := List.exists_cons_of_ne_nil hd
  have hd0 : isDig d0 = true := hdD d0 (List.mem_cons_self _ _)
  have hd0w : isWS d0 = false := isDig_not_ws d0 hd0
  have h1 : (' ' :: ((d0 :: d2) ++ ' ' :: post)).dropWhile isWS =
      (d0 :: d2) ++ ' ' :: post := by
    rw [List.dropWhile_cons]
    simp only [show isWS ' ' = true from rfl, if_true, List.cons_append]
    exact dropWhile_cons_false d0 _ hd0w
  have h2 : ((d0 :: d2) ++ ' ' :: post).takeWhile isDig = d0 :: d2 := by
    rw [takeWhile_append_all _ _ hdD, takeWhile_cons_false ' ' _ (by decide)]
    simp
  have h3 : ((d0 :: d2) ++ ' ' :: post).dropWhile isDig = ' ' :: post := by
    rw [dropWhile_append_all _ _ hdD]
    exact dropWhile_cons_false ' ' _ (by decide)
  have h4 : (' ' :: post).takeWhile isWS = ' ' :: post.takeWhile isWS := by
    rw [List.takeWhile_cons]
    simp [show isWS ' ' = true from rfl]
  have h5 : (' ' :: post).dropWhile isWS = post := by
    rw [List.dropWhile_cons]
    simp only [show isWS ' ' = true from rfl, if_true]
    exact dropWhile_all_false post hpostW
  simp only [stripInnerIndexF, show isWS ' ' = true from rfl, if_true, h1, h2, h3,
    h4, h5]
  simp only [List.isEmpty_cons, Bool.false_eq_true, if_false]
  rw [stripInnerIndexF_no_ws k post hpostW]

theorem stripInnerIndexF_trail (k : Nat) (d : List Char) (hd : d ≠ [])
    (hdD : ∀ c ∈ d, isDig c = true) :
    stripInnerIndexF (k + 1) (' ' :: d) = ' ' :: d := by
  obtain ⟨d0, d2, rfl⟩ := List.exists_cons_of_ne_nil hd
  have hd0 : isDig d0 = true := hdD d0 (List.mem_cons_self _ _)
  have hd0w : isWS d0 = false := isDig_not_ws d0 hd0
  have hdw : ∀ c ∈ d0 :: d2, isWS c = false :=
    fun c hc => isDig_not_ws c (hdD c hc)
  have h1 : (' ' :: (d0 :: d2)).dropWhile isWS = d0 :: d2 := by
    rw [List.dropWhile_cons]
    simp only [show isWS ' ' = true from rfl, if_true]
    exact dropWhile_cons_false d0 _ hd0w
  have h2 : (d0 :: d2).takeWhile isDig = d0 :: d2 := takeWhile_all_eq _ hdD
  have h3 : (d0 :: d2).dropWhile isDig = [] := by
    have := dropWhile_append_all (d0 :: d2) [] hdD
    simpa using this
  simp only [stripInnerIndexF, show isWS ' ' = true from rfl, if_true, h1, h2, h3]
  simp only [List.isEmpty_cons, Bool.false_eq_true, if_false, List.takeWhile_nil,
    List.isEmpty_nil, if_true]
  rw [stripInnerIndexF_no_ws k (d0 :: d2) hdw]

theorem stripLeadIndex_head (l : List Char) (c : Char) (hhead : l.head? = some c)
    (hc : isDig c = false) : stripLeadIndex l = l := by
  cases l with
  | nil => exact absurd hhead (by simp)
  | cons c0 rest =>
    have hc0 : isDig c0 = false := by
      injection hhead with hh
      rw [hh]
      exact hc
    simp only [stripLeadIndex]
    rw [takeWhile_cons_false c0 rest hc0]
    simp

theorem stripLeadIndex_digits (d post : List Char) (hd : d ≠ [])
    (hdD : ∀ c ∈ d, isDig c = true) (hpostW : ∀ c ∈ post, isWS c = false) :
    stripLeadIndex (d ++ ' ' :: post) = post := by
  obtain ⟨d0, d2, rfl⟩ := List.exists_cons_of_ne_nil hd
  have h2 : ((d0 :: d2) ++ ' ' :: post).takeWhile isDig = d0 :: d2 := by
    rw [takeWhile_append_all _ _ hdD, takeWhile_cons_false ' ' _ (by decide)]
    simp
  have h3 : ((d0 :: d2) ++ ' ' :: post).dropWhile isDig = ' ' :: post := by
    rw [dropWhile_append_all _ _ hdD]
    exact dropWhile_cons_false ' ' _ (by decide)
  have h4 : (' ' :: post).takeWhile isWS = ' ' :: post.takeWhile isWS := by
    rw [List.takeWhile_cons]
    simp [show isWS ' ' = true from rfl]
  have h5 : (' ' :: post).dropWhile isWS = post := by
    rw [List.dropWhile_cons]
    simp only [show isWS ' ' = true from rfl, if_true]
    exact dropWhile_all_false post hpostW
  simp only [stripLeadIndex]
  rw [h2, h3, h4, h5]
  simp

theorem stripTrailIndex_last (l : List Char) (c : Char)
    (hlast : l.getLast? = some c) (hc : isDig c = false) :
    stripTrailIndex l = l := by
  simp only [stripTrailIndex]
  cases hrev : l.reverse with
  | nil => simp
  | cons c0 rest =>
    have hl0 : l.getLast? = some c0 := by
      rw [← List.head?_reverse, hrev]
      rfl
    have hc0 : isDig c0 = false := by
      rw [hl0] at hlast
      injection hlast with hh
      rw [hh]
      exact hc
    rw [takeWhile_cons_false c0 rest hc0]
    simp

theorem stripTrailIndex_shape (pre d : List Char) (hpre : pre ≠ [])
    (hpreW : ∀ c ∈ pre, isWS c = false) (hd : d ≠ [])
    (hdD : ∀ c ∈ d, isDig c = true) :
    stripTrailIndex (pre ++ ' ' :: d) = pre := by
  have hrevD : ∀ c ∈ d.reverse, isDig c = true := by
    intro c hc
    exact hdD c (List.mem_reverse.mp hc)
  have hrevP : ∀ c ∈ pre.reverse, isWS c = false := by
    intro c hc
    exact hpreW c (List.mem_reverse.mp hc)
  have hrev : (pre ++ ' ' :: d).reverse = d.reverse ++ ' ' :: pre.reverse := by
    rw [List.reverse_append, List.reverse_cons]
    simp
  have h2 : (d.reverse ++ ' ' :: pre.reverse).takeWhile isDig = d.reverse := by
    rw [takeWhile_append_all _ _ hrevD, takeWhile_cons_false ' ' _ (by decide)]
    simp
  have h3 : (d.reverse ++ ' ' :: pre.reverse).dropWhile isDig =
      ' ' :: pre.reverse := by
    rw [dropWhile_append_all _ _ hrevD]
    exact dropWhile_cons_false ' ' _ (by decide)
  have h4 : (' ' :: pre.reverse).takeWhile isWS =
      ' ' :: pre.reverse.takeWhile isWS := by
    rw [List.takeWhile_cons]
    simp [show isWS ' ' = true from rfl]
  have h5 : (' ' :: pre.reverse).dropWhile isWS = pre.reverse := by
    rw [List.dropWhile_cons]
    simp only [show isWS ' ' = true from rfl, if_true]
    exact dropWhile_all_false pre.reverse hrevP
  have hdnil : d.reverse ≠ [] := by
    intro hh
    exact hd (by simpa using congrArg List.reverse hh)
  obtain ⟨e0, e2, he⟩ := List.exists_cons_of_ne_nil hdnil
  simp only [stripTrailIndex]
  rw [hrev, h2, h3, h4, h5, he]
  simp

theorem getLast?_mem_of (l : List Char) (c : Char) (h : l.getLast? = some c) :
    c ∈ l := by
  obtain ⟨hne, heq⟩ := List.mem_getLast?_eq_getLast (Option.mem_def.mpr h)
  rw [heq]
  exact List.getLast_mem hne

theorem getLast?_cons_mem (a : Char) (l : List Char) :
    ∃ c, (a :: l).getLast? = some c ∧ c ∈ a :: l := by
  induction l generalizing a with
  | nil => exact ⟨a, rfl, by simp⟩
  | cons b l2 ih =>
    obtain ⟨c, hc, hm⟩ := ih b
    exact ⟨c, by rw [List.getLast?_cons_cons]; exact hc,
      List.mem_cons_of_mem a hm⟩

theorem getLast?_word_tail (A : List Char) (q0 : Char) (post2 : List Char) :
    ∃ c, (A ++ ' ' :: (q0 :: post2)).getLast? = some c ∧ c ∈ q0 :: post2 := by
  obtain ⟨c, hc, hm⟩ := getLast?_cons_mem q0 post2
  refine ⟨c, ?_, hm⟩
  rw [List.getLast?_append_of_ne_nil _ (by simp)]
  rw [show (' ' :: (q0 :: post2) : List Char) = [' '] ++ (q0 :: post2) from rfl,
    List.getLast?_append_of_ne_nil _ (by simp)]
  exact hc

theorem trimL_all_not_ws (w : List Char) (hw : ∀ c ∈ w, isWS c = false) :
    trimL w = w := by
  apply trimL_eq_self
  · intro c hc
    cases w with
    | nil => exact absurd hc (by simp)
    | cons a r =>
      injection hc with hc
      exact hc ▸ hw a (List.mem_cons_self a r)
  · intro c hc
    exact hw c (getLast?_mem_of w c hc)

theorem collapse_trim_two_words (pre post : List Char) (hpre : pre ≠ [])
    (hpreW : ∀ c ∈ pre, isWS c = false) (hpost : post ≠ [])
    (hpostW : ∀ c ∈ post, isWS c = false) :
    trimL (collapseWs (pre ++ ' ' :: post)) = pre ++ ' ' :: post := by
  obtain ⟨p0, pre2, rfl⟩ := List.exists_cons_of_ne_nil hpre
  obtain ⟨q0, post2, rfl⟩ := List.exists_cons_of_ne_nil hpost
  have hcoll : collapseWs ((p0 :: pre2) ++ ' ' :: (q0 :: post2)) =
      (p0 :: pre2) ++ ' ' :: (q0 :: post2) := by
    rw [collapseWs_append_plain _ _ hpreW,
      collapseWs_space_cons q0 post2 (hpostW q0 (List.mem_cons_self _ _)),
      collapseWs_plain _ hpostW]
  rw [hcoll]
  apply trimL_eq_self
  · intro c hc
    rw [show ((p0 :: pre2) ++ ' ' :: (q0 :: post2)).head? = some p0 from rfl] at hc
    injection hc with hc
    exact hc ▸ hpreW p0 (List.mem_cons_self _ _)
  · intro c hc
    obtain ⟨c2, hc2, hm2⟩ := getLast?_word_tail (p0 :: pre2) q0 post2
    rw [hc2] at hc
    injection hc with hc
    exact hc ▸ hpostW c2 hm2

theorem collapse_trim_three_words (pre mid post : List Char) (hpre : pre ≠ [])
    (hpreW : ∀ c ∈ pre, isWS c = false) (hmid : mid ≠ [])
    (hmidW : ∀ c ∈ mid, isWS c = false) (hpost : post ≠ [])
    (hpostW : ∀ c ∈ post, isWS c = false) :
    trimL (collapseWs (pre ++ ' ' :: (mid ++ ' ' :: post))) =
      pre ++ ' ' :: (mid ++ ' ' :: post) := by
  obtain ⟨p0, pre2, rfl⟩ := List.exists_cons_of_ne_nil hpre
  obtain ⟨m0, mid2, rfl⟩ := List.exists_cons_of_ne_nil hmid
  obtain ⟨q0, post2, rfl⟩ := List.exists_cons_of_ne_nil hpost
  have hm0 : isWS m0 = false := hmidW m0 (List.mem_cons_self _ _)
  have hcoll : collapseWs ((p0 :: pre2) ++ ' ' :: ((m0 :: mid2) ++ ' ' :: (q0 :: post2))) =
      (p0 :: pre2) ++ ' ' :: ((m0 :: mid2) ++ ' ' :: (q0 :: post2)) := by
    rw [collapseWs_append_plain _ _ hpreW]
    rw [show ((m0 :: mid2) ++ ' ' :: (q0 :: post2) : List Char) =
      m0 :: (mid2 ++ ' ' :: (q0 :: post2)) from rfl]
    rw [collapseWs_space_cons m0 _ hm0]
    rw [show (m0 :: (mid2 ++ ' ' :: (q0 :: post2)) : List Char) =
      (m0 :: mid2) ++ ' ' :: (q0 :: post2) from rfl]
    rw [collapseWs_append_plain _ _ hmidW,
      collapseWs_space_cons q0 post2 (hpostW q0 (List.mem_cons_self _ _)),
      collapseWs_plain _ hpostW]
  rw [hcoll]
  apply trimL_eq_self
  · intro c hc
    rw [show ((p0 :: pre2) ++ ' ' :: ((m0 :: mid2) ++ ' ' :: (q0 :: post2))).head? =
      some p0 from rfl] at hc
    injection hc with hc
    exact hc ▸ hpreW p0 (List.mem_cons_self _ _)
  · intro c hc
    rw [show ((p0 :: pre2) ++ ' ' :: ((m0 :: mid2) ++ ' ' :: (q0 :: post2)) : List Char) =
      ((p0 :: pre2) ++ ' ' :: (m0 :: mid2)) ++ ' ' :: (q0 :: post2) by simp] at hc
    obtain ⟨c2, hc2, hm2⟩ := getLast?_word_tail ((p0 :: pre2) ++ ' ' :: (m0 :: mid2)) q0 post2
    rw [hc2] at hc
    injection hc with hc
    exact hc ▸ hpostW c2 hm2

theorem cleanSubtitleLine_plain_chars (l : List Char)
    (h : ∀ c ∈ l, plainChar c = true ∨ isDig c = true ∨ c = ' ') :
    cleanSubtitleLine l = trimL (collapseWs l) := by
  have h1 : ∀ c ∈ l, c ≠ '<' := by
    intro c hc
    rcases h c hc with hp | hd | he
    · exact (plainChar_spec c hp).2.2.1
    · rintro rfl
      exact absurd hd (by decide)
    · rintro rfl
      exact absurd he (by decide)
  have h2 : ∀ c ∈ l, c ≠ '>' := by
    intro c hc
    rcases h c hc with hp | hd | he
    · exact (plainChar_spec c hp).2.2.2.1
    · rintro rfl
      exact absurd hd (by decide)
    · rintro rfl
      exact absurd he (by decide)
  have h3 : ∀ c ∈ l, c ≠ '[' := by
    intro c hc
    rcases h c hc with hp | hd | he
    · exact (plainChar_spec c hp).2.2.2.2.1
    · rintro rfl
      exact absurd hd (by decide)
    · rintro rfl
      exact absurd he (by decide)
  have h4 : ∀ c ∈ l, c ≠ ':' := by
    intro c hc
    rcases h c hc with hp | hd | he
    · exact (plainChar_spec c hp).2.2.2.2.2.2
    · rintro rfl
      exact absurd hd (by decide)
    · rintro rfl
      exact absurd he (by decide)
  simp only [cleanSubtitleLine]
  rw [replaceHtmlF_id _ l h1, stripLeadSpeaker_id l h2, replaceSpeakerF_id _ l h2,
    replaceBracketsF_id _ l h3, replaceCueF_id _ l h4]

theorem srtProcessLine_surrounded (pre d post : List Char) (hpre : pre ≠ [])
    (hpreP : ∀ c ∈ pre, plainChar c = true) (hd : d ≠ [])
    (hdD : ∀ c ∈ d, isDig c = true) (hpost : post ≠ [])
    (hpostP : ∀ c ∈ post, plainChar c = true) :
    srtProcessLine (pre ++ ' ' :: (d ++ ' ' :: post)) = pre ++ ' ' :: post := by
  obtain ⟨p0, pre2, rfl⟩ := List.exists_cons_of_ne_nil hpre
  obtain ⟨q0, post2, rfl⟩ := List.exists_cons_of_ne_nil hpost
  have hpreW : ∀ c ∈ p0 :: pre2, isWS c = false :=
    fun c hc => (plainChar_spec c (hpreP c hc)).1
  have hpostW : ∀ c ∈ q0 :: post2, isWS c = false :=
    fun c hc => (plainChar_spec c (hpostP c hc)).1
  have hdW : ∀ c ∈ d, isWS c = false := fun c hc => isDig_not_ws c (hdD c hc)
  have hmem : ∀ c ∈ (p0 :: pre2) ++ ' ' :: (d ++ ' ' :: (q0 :: post2)),
      plainChar c = true ∨ isDig c = true ∨ c = ' ' := by
    intro c hc
    simp only [List.mem_append, List.mem_cons] at hc
    rcases hc with hc | hc
    · exact Or.inl (hpreP c (by simpa using hc))
    · rcases hc with rfl | hc
      · exact Or.inr (Or.inr rfl)
      · rcases hc with hc | hc
        · exact Or.inr (Or.inl (hdD c hc))
        · rcases hc with rfl | hc
          · exact Or.inr (Or.inr rfl)
          · exact Or.inl (hpostP c (by simpa using hc))
  have hclean : cleanSubtitleLine ((p0 :: pre2) ++ ' ' :: (d ++ ' ' :: (q0 :: post2))) =
      (p0 :: pre2) ++ ' ' :: (d ++ ' ' :: (q0 :: post2)) := by
    rw [cleanSubtitleLine_plain_chars _ hmem]
    exact collapse_trim_three_words _ _ _ (by simp) hpreW hd hdW (by simp) hpostW
  have hlead : stripLeadIndex ((p0 :: pre2) ++ ' ' :: (d ++ ' ' :: (q0 :: post2))) =
      (p0 :: pre2) ++ ' ' :: (d ++ ' ' :: (q0 :: post2)) :=
    stripLeadIndex_head _ p0 rfl (plainChar_spec p0 (hpreP p0 (List.mem_cons_self _ _))).2.1
  have hk : ((p0 :: pre2) ++ ' ' :: (d ++ ' ' :: (q0 :: post2))).length + 1 -
      (p0 :: pre2).length = (' ' :: (d ++ ' ' :: (q0 :: post2))).length + 1 := by
    simp only [List.length_append, List.length_cons]
    omega
  have hinner :
      stripInnerIndexF
        (((p0 :: pre2) ++ ' ' :: (d ++ ' ' :: (q0 :: post2))).length + 1)
        ((p0 :: pre2) ++ ' ' :: (d ++ ' ' :: (q0 :: post2))) =
      (p0 :: pre2) ++ ' ' :: (q0 :: post2) := by
    rw [stripInnerIndexF_skip (p0 :: pre2) hpreW, hk]
    rw [stripInnerIndexF_match _ d (q0 :: post2) hd hdD hpostW]
  have htrail : stripTrailIndex ((p0 :: pre2) ++ ' ' :: (q0 :: post2)) =
      (p0 :: pre2) ++ ' ' :: (q0 :: post2) := by
    obtain ⟨c2, hc2, hm2⟩ := getLast?_word_tail (p0 :: pre2) q0 post2
    exact stripTrailIndex_last _ c2 hc2 (plainChar_spec c2 (hpostP c2 hm2)).2.1
  simp only [srtProcessLine]
  rw [hclean, hlead, hinner, htrail]
  exact collapse_trim_two_words _ _ (by simp) hpreW (by simp) hpostW

theorem srtProcessLine_leading (d post : List Char) (hd : d ≠ [])
    (hdD : ∀ c ∈ d, isDig c = true) (hpost : post ≠ [])
    (hpostP : ∀ c ∈ post, plainChar c = true) :
    srtProcessLine (d ++ ' ' :: post) = post := by
  obtain ⟨q0, post2, rfl⟩ := List.exists_cons_of_ne_nil hpost
  have hpostW : ∀ c ∈ q0 :: post2, isWS c = false :=
    fun c hc => (plainChar_spec c (hpostP c hc)).1
  have hdW : ∀ c ∈ d, isWS c = false := fun c hc => isDig_not_ws c (hdD c hc)
  have hmem : ∀ c ∈ d ++ ' ' :: (q0 :: post2),
      plainChar c = true ∨ isDig c = true ∨ c = ' ' := by
    intro c hc
    simp only [List.mem_append, List.mem_cons] at hc
    rcases hc with hc | hc
    · exact Or.inr (Or.inl (hdD c hc))
    · rcases hc with rfl | hc
      · exact Or.inr (Or.inr rfl)
      · exact Or.inl (hpostP c (by simpa using hc))
  have hclean : cleanSubtitleLine (d ++ ' ' :: (q0 :: post2)) =
      d ++ ' ' :: (q0 :: post2) := by
    rw [cleanSubtitleLine_plain_chars _ hmem]
    exact collapse_trim_two_words _ _ hd hdW (by simp) hpostW
  have hlast : ∃ c, (q0 :: post2).getLast? = some c ∧ c ∈ q0 :: post2 :=
    getLast?_cons_mem q0 post2
  obtain ⟨c2, hc2, hm2⟩ := hlast
  simp only [srtProcessLine]
  rw [hclean, stripLeadIndex_digits d (q0 :: post2) hd hdD hpostW,
    stripInnerIndexF_no_ws _ _ hpostW,
    stripTrailIndex_last _ c2 hc2 (plainChar_spec c2 (hpostP c2 hm2)).2.1,
    collapseWs_plain _ hpostW, trimL_all_not_ws _ hpostW]

theorem srtProcessLine_trailing (pre d : List Char) (hpre : pre ≠ [])
    (hpreP : ∀ c ∈ pre, plainChar c = true) (hd : d ≠ [])
    (hdD : ∀ c ∈ d, isDig c = true) :
    srtProcessLine (pre ++ ' ' :: d) = pre := by
  obtain ⟨p0, pre2, rfl⟩ := List.exists_cons_of_ne_nil hpre
  have hpreW : ∀ c ∈ p0 :: pre2, isWS c = false :=
    fun c hc => (plainChar_spec c (hpreP c hc)).1
  have hdW : ∀ c ∈ d, isWS c = false := fun c hc => isDig_not_ws c (hdD c hc)
  have hmem : ∀ c ∈ (p0 :: pre2) ++ ' ' :: d,
      plainChar c = true ∨ isDig c = true ∨ c = ' ' := by
    intro c hc
    simp only [List.mem_append, List.mem_cons] at hc
    rcases hc with hc | hc
    · exact Or.inl (hpreP c (by simpa using hc))
    · rcases hc with rfl | hc
      · exact Or.inr (Or.inr rfl)
      · exact Or.inr (Or.inl (hdD c hc))
  have hclean : cleanSubtitleLine ((p0 :: pre2) ++ ' ' :: d) =
      (p0 :: pre2) ++ ' ' :: d := by
    rw [cleanSubtitleLine_plain_chars _ hmem]
    exact collapse_trim_two_words _ _ (by simp) hpreW hd hdW
  have hlead : stripLeadIndex ((p0 :: pre2) ++ ' ' :: d) =
      (p0 :: pre2) ++ ' ' :: d :=
    stripLeadIndex_head _ p0 rfl (plainChar_spec p0 (hpreP p0 (List.mem_cons_self _ _))).2.1
  have hk : ((p0 :: pre2) ++ ' ' :: d).length + 1 - (p0 :: pre2).length =
      (' ' :: d).length + 1 := by
    simp only [List.length_append, List.length_cons]
    omega
  have hinner : stripInnerIndexF (((p0 :: pre2) ++ ' ' :: d).length + 1)
      ((p0 :: pre2) ++ ' ' :: d) = (p0 :: pre2) ++ ' ' :: d := by
    rw [stripInnerIndexF_skip (p0 :: pre2) hpreW, hk]
    rw [stripInnerIndexF_trail _ d hd hdD]
  simp only [srtProcessLine]
  rw [hclean, hlead, hinner, stripTrailIndex_shape _ d (by simp) hpreW hd hdD,
    collapseWs_plain _ hpreW, trimL_all_not_ws _ hpreW]

/-- C10: inside an SRT cue-text line, a standalone run of decimal digits —
leading and followed by whitespace, trailing and preceded by whitespace, or
surrounded by whitespace with no adjacent digit run — is removed by the
line-processing pipeline of `parseSRT` even when the digits are genuine
content (here `pre` and `post` are arbitrary non-empty words free of digits,
whitespace and cleaning-trigger characters, and `d` an arbitrary non-empty
digit run); in particular the cue line `I have 2 apples` contributes
`I have apples` to the transcript. -/
theorem parseSRT_strips_standalone_digit_runs (pre d post : List Char)
    (hpre : pre ≠ []) (hpreP : ∀ c ∈ pre, plainChar c = true) (hd : d ≠ [])
    (hdD : ∀ c ∈ d, isDig c = true) (hpost : post ≠ [])
    (hpostP : ∀ c ∈ post, plainChar c = true) :
    srtProcessLine (pre ++ ' ' :: (d ++ ' ' :: post)) = pre ++ ' ' :: post ∧
    srtProcessLine (d ++ ' ' :: post) = post ∧
    srtProcessLine (pre ++ ' ' :: d) = pre ∧
    parseSRT ("1\n00:00:00,000 --> 00:00:05,000\nI have 2 apples".data) =
      "I have apples".data :=
  ⟨srtProcessLine_surrounded pre d post hpre hpreP hd hdD hpost hpostP,
   srtProcessLine_leading d post hd hdD hpost hpostP,
   srtProcessLine_trailing pre d hpre hpreP hd hdD,
   by rfl⟩

/-- Witness for C10 at the words `have`, digit run `2`, and `apples`. -/
theorem parseSRT_strips_standalone_digit_runs_witness :
    srtProcessLine ("have".data ++ ' ' :: ("2".data ++ ' ' :: "apples".data)) =
      "have".data ++ ' ' :: "apples".data ∧
    srtProcessLine ("2".data ++ ' ' :: "apples".data) = "apples".data ∧
    srtProcessLine ("have".data ++ ' ' :: "2".data) = "have".data ∧
    parseSRT ("1\n00:00:00,000 --> 00:00:05,000\nI have 2 apples".data) =
      "I have apples".data :=
  parseSRT_strips_standalone_digit_runs "have".data "2".data "apples".data
    (by decide) (by decide) (by decide) (by decide) (by decide) (by decide)

/-! Lemmas about the acquisition orchestration (C1, C2, C3). -/

theorem subsCatchPath_spec (env : SubsEnv) (baseName : List Char)
    (fmt : SubtitleFormat) :
    ((subsCatchPath env baseName fmt).1 = none →
      (subsCatchPath env baseName fmt).2 = env.files) ∧
    (∀ content, (subsCatchPath env baseName fmt).1 = some content →
      ∃ f, findSubtitleFile baseName env.files (some fmt) = some f ∧
        env.read f = some content ∧
        (subsCatchPath env baseName fmt).2 = env.files.erase f) := by
  unfold subsCatchPath
  cases hfind : findSubtitleFile baseName env.files (some fmt) with
  | none => exact ⟨fun _ => rfl, fun content hc => absurd hc (by simp)⟩
  | some f =>
    dsimp only
    cases hread : env.read f with
    | none => exact ⟨fun _ => rfl, fun content hc => absurd hc (by simp)⟩
    | some c =>
      dsimp only
      by_cases htrim : (trimL c).isEmpty
      · rw [if_pos htrim]
        exact ⟨fun _ => rfl, fun content hc => absurd hc (by simp)⟩
      · rw [if_neg htrim]
        refine ⟨fun hc => absurd hc (by simp), fun content hc => ?_⟩
        injection hc with hc
        exact ⟨f, rfl, by rw [hread, hc], by rw [hc]⟩

/-- C1: when the extraction tool call errors (non-zero exit, crash or
timeout) but the caption-file search still finds a matching file whose
content is non-blank, `downloadSubtitles` returns that content as a success;
feeding such a primary success into the orchestration yields provenance
`youtube` (primary) with zero fallback invocations; and conversely a `null`
result after a tool error means every file the search found was unreadable
or blank — only then is the attempt a true failure. -/
theorem downloadSubtitles_tool_error_salvages (env : SubsEnv)
    (baseName : List Char) (fmt : SubtitleFormat) (f content : List Char)
    (hfind : findSubtitleFile baseName env.files (some fmt) = some f)
    (hread : env.read f = some content)
    (hne : (trimL content).isEmpty = false) :
    (downloadSubtitles env .err baseName fmt).1 = some content ∧
    (∀ mode svc, acquireSubtitles (some content) mode svc =
      (some (content, SubtitleSource.youtube), 0)) ∧
    (∀ env2 : SubsEnv, ∀ base2 fmt2,
      (downloadSubtitles env2 .err base2 fmt2).1 = none →
      ∀ f2, findSubtitleFile base2 env2.files (some fmt2) = some f2 →
        ∀ c2, env2.read f2 = some c2 → (trimL c2).isEmpty = true) := by
  refine ⟨?_, ?_, ?_⟩
  · show (subsCatchPath env baseName fmt).1 = some content
    unfold subsCatchPath
    rw [hfind]
    dsimp only
    rw [hread]
    dsimp only
    rw [if_neg (by simp [hne])]
  · intro mode svc
    have hcne : content ≠ [] := by
      intro hc
      subst hc
      exact absurd hne (by decide)
    have htr : jsTruthy (some content) = true := by
      simp [jsTruthy, hcne]
    unfold acquireSubtitles
    rw [if_pos htr]
    rfl
  · intro env2 base2 fmt2 hnone f2 hf2 c2 hc2
    by_contra hempty
    have hemptyF : (trimL c2).isEmpty = false := by
      cases h : (trimL c2).isEmpty
      · rfl
      · exact absurd h hempty
    have : (downloadSubtitles env2 .err base2 fmt2).1 = some c2 := by
      show (subsCatchPath env2 base2 fmt2).1 = some c2
      unfold subsCatchPath
      rw [hf2]
      dsimp only
      rw [hc2]
      dsimp only
      rw [if_neg (by simp [hemptyF])]
    rw [this] at hnone
    exact Option.noConfusion hnone

/-- Witness for C1: a tool error with a non-empty caption file on disk. -/
theorem downloadSubtitles_tool_error_salvages_witness :
    (downloadSubtitles
        { files := ["subtitles_a.srt".data], read := fun _ => some "hello".data }
        .err "subtitles_a".data .srt).1 = some "hello".data ∧
    (∀ mode svc, acquireSubtitles (some "hello".data) mode svc =
      (some ("hello".data, SubtitleSource.youtube), 0)) ∧
    (∀ env2 : SubsEnv, ∀ base2 fmt2,
      (downloadSubtitles env2 .err base2 fmt2).1 = none →
      ∀ f2, findSubtitleFile base2 env2.files (some fmt2) = some f2 →
        ∀ c2, env2.read f2 = some c2 → (trimL c2).isEmpty = true) :=
  downloadSubtitles_tool_error_salvages
    { files := ["subtitles_a.srt".data], read := fun _ => some "hello".data }
    "subtitles_a".data .srt "subtitles_a.srt".data "hello".data
    (by rfl) (by rfl) (by rfl)

/-- C2: the transcription fallback of `validateAndDownloadSubtitles` runs
only after the primary result is known and found unusable, is invoked at
most once and is never retried; when the primary result is usable the source
is `youtube` and the fallback is not invoked; when the Whisper mode is `off`
the fallback is not invoked and an unusable primary result yields the 404
NotFound response (`none`). -/
theorem acquireSubtitles_fallback_policy (primary : Option (List Char))
    (mode : WhisperMode) (fallback : Option (List Char)) :
    (acquireSubtitles primary mode fallback).2 ≤ 1 ∧
    (jsTruthy primary = true →
      acquireSubtitles primary mode fallback =
        (primary.map (fun c => (c, SubtitleSource.youtube)), 0)) ∧
    (mode = WhisperMode.off →
      (acquireSubtitles primary mode fallback).2 = 0 ∧
      (jsTruthy primary = false →
        (acquireSubtitles primary mode fallback).1 = none)) ∧
    ((acquireSubtitles primary mode fallback).2 = 1 →
      jsTruthy primary = false ∧ mode ≠ WhisperMode.off) := by
  unfold acquireSubtitles
  by_cases hp : jsTruthy primary = true
  · simp [hp]
  · have hp2 : jsTruthy primary = false := by
      cases h : jsTruthy primary
      · rfl
      · exact absurd h hp
    by_cases hm : mode = WhisperMode.off
    · subst hm
      simp [hp2]
    · simp [hp2, hm]

/-- C3 counterexample: on the success-path exit where a caption file is
found but its content trims to empty, `downloadSubtitles` returns `null`
without unlinking — the temp caption file created during the attempt
survives the call, so not every exit path deletes the artifacts. -/
theorem downloadSubtitles_empty_file_leak :
    downloadSubtitles
        { files := ["subtitles_a.srt".data], read := fun _ => some "  ".data }
        .ok "subtitles_a".data SubtitleFormat.srt =
      (none, ["subtitles_a.srt".data]) := by
  rfl

/-- C3 (amended): the caption file is unlinked before returning exactly on
the paths that return its content (non-blank after trimming); when the
attempt fails — no file found, the file unreadable, or its content blank —
the files on disk are left untouched; the fallback's audio file, once
produced, is always unlinked by `transcribeWithWhisper`'s `finally`, and in
mode `off` nothing is downloaded or touched. -/
theorem acquisition_cleanup_policy (env : SubsEnv) (tool : ToolResult)
    (baseName : List Char) (fmt : SubtitleFormat) :
    ((downloadSubtitles env tool baseName fmt).1 = none →
      (downloadSubtitles env tool baseName fmt).2 = env.files) ∧
    (∀ content, (downloadSubtitles env tool baseName fmt).1 = some content →
      ∃ f, findSubtitleFile baseName env.files (some fmt) = some f ∧
        env.read f = some content ∧
        (downloadSubtitles env tool baseName fmt).2 = env.files.erase f) ∧
    (∀ mode p files svc, mode ≠ WhisperMode.off →
      (transcribeWithWhisper mode (some p) files svc).2 = files.erase p) ∧
    (∀ audioPath files svc,
      (transcribeWithWhisper WhisperMode.off audioPath files svc).2 = files) := by
  refine ⟨?_, ?_, ?_, ?_⟩
  · intro hnone
    cases tool with
    | err => exact (subsCatchPath_spec env baseName fmt).1 hnone
    | ok =>
      unfold downloadSubtitles at hnone ⊢
      cases hfind : findSubtitleFile baseName env.files (some fmt) with
      | none => rfl
      | some f =>
        rw [hfind] at hnone
        dsimp only at hnone ⊢
        cases hread : env.read f with
        | none =>
          rw [hread] at hnone
          dsimp only at hnone ⊢
          exact (subsCatchPath_spec env baseName fmt).1 hnone
        | some c =>
          rw [hread] at hnone
          dsimp only at hnone ⊢
          by_cases htrim : (trimL c).isEmpty
          · rw [if_pos htrim]
          · rw [if_neg htrim] at hnone
            exact absurd hnone (by simp)
  · intro content hsome
    cases tool with
    | err => exact (subsCatchPath_spec env baseName fmt).2 content hsome
    | ok =>
      unfold downloadSubtitles at hsome ⊢
      cases hfind : findSubtitleFile baseName env.files (some fmt) with
      | none =>
        rw [hfind] at hsome
        exact absurd hsome (by simp)
      | some f =>
        rw [hfind] at hsome
        dsimp only at hsome ⊢
        cases hread : env.read f with
        | none =>
          rw [hread] at hsome
          dsimp only at hsome ⊢
          rw [← hfind]
          exact (subsCatchPath_spec env baseName fmt).2 content hsome
        | some c =>
          rw [hread] at hsome
          dsimp only at hsome ⊢
          by_cases htrim : (trimL c).isEmpty
          · rw [if_pos htrim] at hsome
            exact absurd hsome (by simp)
          · rw [if_neg htrim] at hsome ⊢
            injection hsome with hsome
            exact ⟨f, rfl, by rw [hread, hsome], by rw [hsome]⟩
  · intro mode p files svc hmode
    unfold transcribeWithWhisper
    rw [if_neg hmode]
  · intro audioPath files svc
    unfold transcribeWithWhisper
    rw [if_pos rfl]

end YtCaps
